import Mathlib

/-!
Shallow embedding of the lain-io-api ingestion and upload scripts
(`generate_lain_personality.py` and `upload_embeddings.py`).

Pure text processing (markdown parsing, chunking, categorization, wire-format
escaping) is embedded as executable functions over `List Char` / `String`.
The network-facing upload pipelines are embedded as functions over explicit
environments (oracles for call outcomes and operator prompt responses) that
return result counters together with a trace of the remote calls made.
-/

/-- Python whitespace characters in the ASCII range, as used by `str.strip`,
`str.split()` and the regex class `\s` on the script's ASCII inputs. -/
def wsChar (c : Char) : Bool :=
  c = ' ' || c = '\t' || c = '\n' || c = '\r' || c = Char.ofNat 11 || c = Char.ofNat 12

/-- The backquote character (code point 96). -/
def btk : Char := Char.ofNat 96

/-- Drop matching characters from the end of a list. -/
def dropEndWhile (p : Char → Bool) (l : List Char) : List Char :=
  (l.reverse.dropWhile p).reverse

/-- Python `str.strip()` on a character list. -/
def pyStripL (l : List Char) : List Char :=
  dropEndWhile wsChar (l.dropWhile wsChar)

/-- Python `str.strip()`. -/
def pyStrip (s : String) : String := String.mk (pyStripL s.toList)

/-- Python `str.lower()` (ASCII inputs). -/
def pyLower (s : String) : String := String.mk (s.toList.map Char.toLower)

/-- Does `pat` occur at the head of `l`? -/
def startsWithL : List Char → List Char → Bool
  | [], _ => true
  | _ :: _, [] => false
  | p :: ps, c :: cs => p = c && startsWithL ps cs

/-- Does `l` end with `suf`? -/
def endsWithL (suf l : List Char) : Bool := startsWithL suf.reverse l.reverse

/-- Index of the first occurrence of `pat` in `l`, if any. -/
def findSubFrom (pat : List Char) : List Char → Option Nat
  | [] => if startsWithL pat [] then some 0 else none
  | l@(_ :: rest) =>
    if startsWithL pat l then some 0
    else (findSubFrom pat rest).map (· + 1)

/-- Python `needle in hay` substring test. -/
def pyContains (needle hay : String) : Bool :=
  (findSubFrom needle.toList hay.toList).isSome

/-- Python `str.replace(pat, rep)` on lists: replace all occurrences, scanning
left to right without rescanning replacements.  `fuel` is an upper bound on the
number of scanning steps (the list's length suffices for nonempty `pat`). -/
def replaceL (pat rep : List Char) : Nat → List Char → List Char
  | 0, l => l
  | fuel + 1, l =>
    match l with
    | [] => []
    | c :: rest =>
      if !pat.isEmpty && startsWithL pat l then
        rep ++ replaceL pat rep fuel (l.drop pat.length)
      else c :: replaceL pat rep fuel rest

/-- Python `str.replace(pat, rep)` (all occurrences). -/
def pyReplace (s pat rep : String) : String :=
  String.mk (replaceL pat.toList rep.toList s.toList.length s.toList)

/-- Python `str.split()` with no argument: split on whitespace runs,
discarding empty pieces.  `acc` holds the current piece, reversed. -/
def splitWsAux : List Char → List Char → List (List Char)
  | [], acc => if acc.isEmpty then [] else [acc.reverse]
  | c :: rest, acc =>
    if wsChar c then
      if acc.isEmpty then splitWsAux rest [] else acc.reverse :: splitWsAux rest []
    else splitWsAux rest (c :: acc)

def splitWsL (l : List Char) : List (List Char) := splitWsAux l []

/-- Python `' '.join(parts)` on character lists. -/
def joinSpaceL (parts : List (List Char)) : List Char :=
  (parts.intersperse [' ']).flatten

/-- The substitution `re.sub(r'\n+', ' ', _)`: each maximal run of newline
characters becomes a single space.  `prevNl` records whether the previous
character was a newline. -/
def collapseNlAux : Bool → List Char → List Char
  | _, [] => []
  | prevNl, c :: rest =>
    if c = '\n' then
      if prevNl then collapseNlAux true rest else ' ' :: collapseNlAux true rest
    else c :: collapseNlAux false rest

def collapseNl (l : List Char) : List Char := collapseNlAux false l

/-- The triple-backquote fence. -/
def fenceL : List Char := [btk, btk, btk]

/-- The substitution `re.sub(r'```[\s\S]*?```', '', content)`: repeatedly drop
the region from the leftmost fence to the earliest closing fence after it.
`fuel` bounds the number of removals (the list's length suffices). -/
def removeFencesAux : Nat → List Char → List Char
  | 0, l => l
  | fuel + 1, l =>
    match findSubFrom fenceL l with
    | none => l
    | some i =>
      let after := l.drop (i + 3)
      match findSubFrom fenceL after with
      | none => l
      | some j => l.take i ++ removeFencesAux fuel (after.drop (j + 3))

def removeFences (l : List Char) : List Char := removeFencesAux l.length l

/-- The substitution ``re.sub(r'`[^`]+`', '', _)``: an inline code span is a
backquote, one or more non-backquote characters, and a closing backquote; a
lone backquote that starts no such span is kept and scanning resumes at the
next character, as the regex engine does.  `fuel` bounds scanning steps. -/
def removeInlineAux : Nat → List Char → List Char
  | 0, l => l
  | fuel + 1, l =>
    match l with
    | [] => []
    | c :: rest =>
      if c = btk then
        let content := rest.takeWhile (fun x => x ≠ btk)
        if !content.isEmpty && startsWithL [btk] (rest.drop content.length) then
          removeInlineAux fuel (rest.drop (content.length + 1))
        else c :: removeInlineAux fuel rest
      else c :: removeInlineAux fuel rest

/-- The substitution `re.sub(r'\[([^\]]+)\]\([^)]+\)', r'\1', _)`: markdown
links are rewritten to their link text; the emitted text is not rescanned
(regex replacements never are).  On a failed match at `[`, the bracket is kept
and scanning resumes at the next character.  `fuel` bounds scanning steps. -/
def removeLinksAux : Nat → List Char → List Char
  | 0, l => l
  | fuel + 1, l =>
    match l with
    | [] => []
    | c :: rest =>
      if c = '[' then
        let txt := rest.takeWhile (fun x => x ≠ ']')
        let r1 := rest.drop txt.length
        if !txt.isEmpty && startsWithL [']', '('] r1 then
          let r2 := r1.drop 2
          let url := r2.takeWhile (fun x => x ≠ ')')
          if !url.isEmpty && startsWithL [')'] (r2.drop url.length) then
            txt ++ removeLinksAux fuel (r2.drop (url.length + 1))
          else c :: removeLinksAux fuel rest
        else c :: removeLinksAux fuel rest
      else c :: removeLinksAux fuel rest

/-- A markdown punctuation character removed by `re.sub(r'[#*_`]', '', _)`. -/
def mdPunct (c : Char) : Bool := c = '#' || c = '*' || c = '_' || c = btk

/-- The cleaning pipeline of `extract_meaningful_content`
(`generate_lain_personality.py` lines 271-276): remove fenced code blocks,
remove inline code, rewrite links to their text, strip markdown punctuation,
collapse newline runs to spaces, and normalize whitespace via
`' '.join(cleaned.split())`. -/
def cleanTextL (l : List Char) : List Char :=
  let l1 := removeFences l
  let l2 := removeInlineAux l1.length l1
  let l3 := removeLinksAux l2.length l2
  let l4 := l3.filter (fun c => !mdPunct c)
  let l5 := collapseNl l4
  joinSpaceL (splitWsL l5)

/-- The cleaned form of the input text, as a string. -/
def cleanText (content : String) : String := String.mk (cleanTextL content.toList)

/-- A sentence-terminal punctuation character (`re.split(r'[.!?]+', _)`). -/
def sentChar (c : Char) : Bool := c = '.' || c = '!' || c = '?'

/-- `re.split(r'[.!?]+', _)`: split on maximal runs of sentence punctuation,
keeping empty pieces at the boundary positions, as `re.split` does.
`inSep` records whether the scan is inside a separator run; `acc` holds the
current piece, reversed. -/
def splitSentsAux : Bool → List Char → List Char → List (List Char)
  | _, [], acc => [acc.reverse]
  | inSep, c :: rest, acc =>
    if sentChar c then
      if inSep then splitSentsAux true rest acc
      else acc.reverse :: splitSentsAux true rest []
    else splitSentsAux false rest (c :: acc)

def splitSentsL (l : List Char) : List (List Char) := splitSentsAux false l []

/-- The greedy sentence-accumulation loop of `extract_meaningful_content`
(lines 286-301): strip each candidate sentence, skip empty ones, append a
sentence to the running chunk while `len(current_chunk) + len(sentence)`
stays within `max_chars` (the appended text is the sentence plus `". "`),
otherwise close the stripped current chunk and restart from the pending
sentence; finally flush the last chunk. -/
def greedyChunksL (maxc : Nat) : List (List Char) → List Char → List (List Char)
  | [], cur => if cur.isEmpty then [] else [pyStripL cur]
  | s :: rest, cur =>
    let s1 := pyStripL s
    if s1.isEmpty then greedyChunksL maxc rest cur
    else if cur.length + s1.length ≤ maxc then
      greedyChunksL maxc rest (cur ++ s1 ++ ['.', ' '])
    else if cur.isEmpty then greedyChunksL maxc rest (s1 ++ ['.', ' '])
    else pyStripL cur :: greedyChunksL maxc rest (s1 ++ ['.', ' '])

/-- `extract_meaningful_content(content, max_chars)`
(`generate_lain_personality.py` lines 268-303): clean the text; emit it as a
single chunk when it fits in `max_chars`, otherwise split into sentences and
accumulate greedily; finally keep only chunks whose stripped length exceeds
50 characters. -/
def extract_meaningful_content (content : String) (max_chars : Nat) : List String :=
  let cleaned := cleanTextL content.toList
  let chunks :=
    if cleaned.length ≤ max_chars then [cleaned]
    else greedyChunksL max_chars (splitSentsL cleaned) []
  (chunks.filter (fun c => 50 < (pyStripL c).length)).map String.mk

/-- Insertion into a Python dict modelled as an ordered association list:
an existing key keeps its position and gets the new value, a new key is
appended at the end. -/
def dictInsert (d : List (String × String)) (k v : String) : List (String × String) :=
  if d.any (fun p => p.1 == k) then
    d.map (fun p => if p.1 == k then (k, v) else p)
  else d ++ [(k, v)]

/-- Lookup in an ordered association list (Python `dict.get`). -/
def dictFind (d : List (String × String)) (k : String) : Option String :=
  (d.find? (fun p => p.1 == k)).map (fun p => p.2)

/-- Match `\s*(.+)` at the start of `after`, returning the captured group:
the greedy whitespace run may cross newlines; `.+` then takes at least one
non-newline character up to the end of the line.  When the whitespace run
reaches the end of the input the engine backtracks to the last non-newline
whitespace character, which then forms the one-character group. -/
def matchWsRest (after : List Char) : Option (List Char) :=
  let rest := after.dropWhile wsChar
  match rest with
  | _ :: _ => some (rest.takeWhile (fun x => x ≠ '\n'))
  | [] =>
    match (after.takeWhile wsChar).reverse.dropWhile (fun x => x = '\n') with
    | [] => none
    | c :: _ => some [c]

/-- `re.search(lit + r'\s*(.+)', content)`: scan left to right for an
occurrence of the literal whose tail admits a `\s*(.+)` match, returning the
captured group of the leftmost such occurrence. -/
def searchLitWsRest (lit : List Char) : List Char → Option (List Char)
  | [] => none
  | l@(_ :: rest) =>
    if startsWithL lit l then
      match matchWsRest (l.drop lit.length) with
      | some g => some g
      | none => searchLitWsRest lit rest
    else searchLitWsRest lit rest

/-- Match `#\s+(.+)$` at a line start (`re.MULTILINE`): a `#`, at least one
whitespace character (the greedy run may cross newlines), then at least one
non-newline character up to the end of the line.  When the whitespace run
reaches the end of the input the engine backtracks to the last non-newline
whitespace character at offset at least one, which forms the group. -/
def matchTitleAt : List Char → Option (List Char)
  | '#' :: rest =>
    let w := rest.takeWhile wsChar
    if w.isEmpty then none
    else
      match rest.drop w.length with
      | c :: cs => some ((c :: cs).takeWhile (fun x => x ≠ '\n'))
      | [] =>
        match w.reverse.dropWhile (fun x => x = '\n') with
        | _ :: _ :: _ => some [(w.reverse.dropWhile (fun x => x = '\n')).headI]
        | _ => none
  | _ => none

/-- `re.search(r'^#\s+(.+)$', content, re.MULTILINE)`: try the pattern at the
start of the input and after every newline, leftmost match first. -/
def searchTitleAux : List Char → Option (List Char)
  | [] => none
  | '\n' :: rest =>
    match matchTitleAt rest with
    | some g => some g
    | none => searchTitleAux rest
  | _ :: rest => searchTitleAux rest

def searchTitle (l : List Char) : Option (List Char) :=
  match matchTitleAt l with
  | some g => some g
  | none => searchTitleAux l

/-- One attempt of the heading pattern `\n##\s+(.+)\n` with the `\s+` run
fixed to length `k` of `r2` (the text after `\n##`): `.+` must start with a
non-newline character and the line must be terminated by a newline, which the
match consumes.  Returns the captured group and the remainder after the
match. -/
def attemptHeading (r2 : List Char) (k : Nat) : Option (List Char × List Char) :=
  match r2.drop k with
  | [] => none
  | c :: cs =>
    if c = '\n' then none
    else
      let content := (c :: cs).takeWhile (fun x => x ≠ '\n')
      match (c :: cs).drop content.length with
      | '\n' :: rem => some (content, rem)
      | _ => none

/-- Greedy backtracking over the `\s+` length, longest first, length at least
one. -/
def tryHeading (r2 : List Char) : Nat → Option (List Char × List Char)
  | 0 => none
  | k + 1 =>
    match attemptHeading r2 (k + 1) with
    | some res => some res
    | none => tryHeading r2 k

/-- Match `\n##\s+(.+)\n` at the current position. -/
def matchHeadingAt : List Char → Option (List Char × List Char)
  | '\n' :: '#' :: '#' :: r2 =>
    let w := r2.takeWhile wsChar
    if w.isEmpty then none else tryHeading r2 w.length
  | _ => none

/-- `re.split(r'\n##\s+(.+)\n', content)`: the piece before the first match,
then (captured heading, following piece) pairs; matches are found left to
right and do not overlap, scanning resumes after the newline each match
consumes.  `fuel` bounds scanning steps; `acc` holds the current piece,
reversed. -/
def splitSectionsAux : Nat → List Char → List Char → (List Char × List (List Char × List Char))
  | 0, acc, l => (acc.reverse ++ l, [])
  | fuel + 1, acc, l =>
    match l with
    | [] => (acc.reverse, [])
    | c :: rest =>
      match matchHeadingAt l with
      | some (g, rem) =>
        let (p, ps) := splitSectionsAux fuel [] rem
        (acc.reverse, (g, p) :: ps)
      | none => splitSectionsAux fuel (c :: acc) rest

def splitSections (l : List Char) : List Char × List (List Char × List Char) :=
  splitSectionsAux l.length [] l

/-- The result dictionary of `parse_markdown_file`. -/
structure ParsedDoc where
  metadata : List (String × String)
  sections : List (String × String)
  full_content : String
deriving DecidableEq

/-- The metadata keys and their literal patterns, in code order
(`generate_lain_personality.py` lines 216-221). -/
def metadataKeys : List (String × String) :=
  [("status", "**Status**:"), ("type", "**Type**:"),
   ("url", "**URL**:"), ("platform", "**Platform**:")]

/-- Python `str.replace(' ', '_')` composed after `.lower()` and `.strip()`,
the normalization applied to section headings (line 243). -/
def normalizeHeading (g : String) : String :=
  pyReplace (pyLower (pyStrip g)) " " "_"

/-- The pure core of `parse_markdown_file`
(`generate_lain_personality.py` lines 211-251): extract `**Key**:` metadata,
the first level-1 heading as the title, and split the body on level-2
headings, the span before the first heading becoming `overview` when its
stripped form is nonempty. -/
def parse_markdown_content (content : String) : ParsedDoc :=
  let cl := content.toList
  let md0 := metadataKeys.foldl (fun md kp =>
    match searchLitWsRest kp.2.toList cl with
    | some g => dictInsert md kp.1 (pyStrip (String.mk g))
    | none => md) []
  let metadata :=
    match searchTitle cl with
    | some g => dictInsert md0 "title" (pyStrip (String.mk g))
    | none => md0
  let (first, pairs) := splitSections cl
  let secs0 :=
    if (pyStripL first).isEmpty then []
    else [("overview", String.mk (pyStripL first))]
  let sections := pairs.foldl (fun sec gp =>
    dictInsert sec (normalizeHeading (String.mk gp.1)) (pyStrip (String.mk gp.2))) secs0
  { metadata := metadata, sections := sections, full_content := content }

/-- `parse_markdown_file` including its exception boundary: the file read
result is passed as `none` when reading raises (the `except` branch then
logs and returns the empty dictionary, modelled as `none`), and as
`some content` on a successful read.  The body itself is total: no input
makes it raise. -/
def parse_markdown_file (readResult : Option String) : Option ParsedDoc :=
  match readResult with
  | none => none
  | some content => some (parse_markdown_content content)

/-- A compiled categorization pattern: every pattern in `WIKI_CATEGORIZATION`
is either a literal anchored at the end (`LIT$`) or a literal prefix, a
newline-free gap, and a literal suffix anchored at the end (`PRE.*SUF$`). -/
inductive PathPattern where
  | litEnd (lit : String) : PathPattern
  | preAnyEnd (pre suf : String) : PathPattern
deriving DecidableEq

/-- The ordered categorization table `WIKI_CATEGORIZATION`
(`generate_lain_personality.py` lines 175-203), with each regex compiled to
its `PathPattern` shape. -/
def WIKI_CATEGORIZATION : List (String × List PathPattern) :=
  [("project-docs",
    [PathPattern.preAnyEnd "projects/" ".md", PathPattern.litEnd "projects/README.md"]),
   ("tech-guides",
    [PathPattern.litEnd "icp-overview.md", PathPattern.litEnd "development.md",
     PathPattern.litEnd "architecture.md", PathPattern.litEnd "deployment.md",
     PathPattern.litEnd "best-practices.md"]),
   ("meta-docs",
    [PathPattern.litEnd "README.md", PathPattern.litEnd "contributing.md",
     PathPattern.litEnd "glossary.md", PathPattern.litEnd "faq.md",
     PathPattern.litEnd "resources.md"])]

/-- Drop one trailing newline: the regex anchor `$` (without `re.MULTILINE`)
matches at the end of the string or just before a final newline. -/
def chopFinalNl (l : List Char) : List Char :=
  match l.reverse with
  | '\n' :: r => r.reverse
  | _ => l

/-- `re.search("PRE.*SUF$", c)` on the newline-chopped input: the input ends
with `SUF`, and some occurrence of `PRE` ends at or before the start of that
suffix with only non-newline characters in between (`.` does not match
newlines). -/
def searchPreAnyEnd (pre suf c : List Char) : Bool :=
  endsWithL suf c &&
  (List.range (c.length + 1)).any (fun i =>
    startsWithL pre (c.drop i) &&
    i + pre.length + suf.length ≤ c.length &&
    ((c.drop (i + pre.length)).take (c.length - suf.length - (i + pre.length))).all
      (fun x => x ≠ '\n'))

/-- `re.search(pattern, path)` for a compiled categorization pattern. -/
def patMatches (p : PathPattern) (path : String) : Bool :=
  let c := chopFinalNl path.toList
  match p with
  | PathPattern.litEnd lit => endsWithL lit.toList c
  | PathPattern.preAnyEnd pre suf => searchPreAnyEnd pre.toList suf.toList c

/-- Does any pattern of the rule match the path? -/
def ruleMatches (path : String) (rule : String × List PathPattern) : Bool :=
  rule.2.any (fun p => patMatches p path)

/-- Split a character list on `/`, keeping empty pieces
(Python `str.split('/')`).  `acc` holds the current piece, reversed. -/
def splitSlashAux : List Char → List Char → List (List Char)
  | [], acc => [acc.reverse]
  | c :: rest, acc =>
    if c = '/' then acc.reverse :: splitSlashAux rest []
    else splitSlashAux rest (c :: acc)

/-- Split a path into its nonempty `/`-separated components. -/
def splitPathComponents (p : String) : List (List Char) :=
  (splitSlashAux p.toList []).filter (fun x => x ≠ [])

/-- Length of the componentwise common prefix of two component lists
(`os.path.commonprefix` on lists). -/
def commonPrefixLen : List (List Char) → List (List Char) → Nat
  | a :: as, b :: bs => if a = b then commonPrefixLen as bs + 1 else 0
  | _, _ => 0

/-- Join path components with `/`. -/
def joinSlashL (parts : List (List Char)) : List Char :=
  (parts.intersperse ['/']).flatten

/-- `os.path.relpath(path, start)` for absolute, already-normalized POSIX
paths (the script's inputs): drop the common component prefix, prepend one
`..` per remaining component of `start`, and join with `/` (or `.` when
nothing remains). -/
def os_path_relpath (path start : String) : String :=
  let sl := splitPathComponents start
  let pl := splitPathComponents path
  let i := commonPrefixLen sl pl
  let rel := List.replicate (sl.length - i) ['.', '.'] ++ pl.drop i
  if rel.isEmpty then "." else String.mk (joinSlashL rel)

/-- The hard-coded wiki content root (`generate_lain_personality.py`
line 259). -/
def wikiDocsRoot : String := "/Users/laincorp/LainCorp/memex-wiki/docs"

/-- `categorize_wiki_content(file_path)` (lines 257-266): compute the path
relative to the wiki root, return the category of the first rule, in
declaration order, whose pattern matches, and `"general-docs"` when none
does. -/
def categorize_wiki_content (file_path : String) : String :=
  let relative_path := os_path_relpath file_path wikiDocsRoot
  match WIKI_CATEGORIZATION.find? (fun rule => ruleMatches relative_path rule) with
  | some rule => rule.1
  | none => "general-docs"

/-- Python `str.title()` on ASCII text: the first letter of each run of
letters is uppercased, the rest lowercased.  `prevAlpha` records whether the
previous character was a letter. -/
def pyTitleAux : Bool → List Char → List Char
  | _, [] => []
  | prevAlpha, c :: rest =>
    if c.isAlpha then
      (if prevAlpha then c.toLower else c.toUpper) :: pyTitleAux true rest
    else c :: pyTitleAux false rest

def pyTitle (s : String) : String := String.mk (pyTitleAux false s.toList)

/-- `os.path.basename` for POSIX paths: the part after the last `/`. -/
def os_path_basename (p : String) : String :=
  match (splitSlashAux p.toList []).getLast? with
  | some x => String.mk x
  | none => ""

/-- A pre-embedding record produced by `process_wiki_file`
(`generate_lain_personality.py` lines 330-364). -/
structure WikiRecord where
  text : String
  category : String
  importance : ℚ
  source_file : String
  content_type : String
  metadata : List (String × String)
deriving DecidableEq

/-- The sections given the higher importance 0.8 (lines 343-344). -/
def important_sections : List String :=
  ["features", "architecture", "core_mission", "key_concepts",
   "overview", "getting_started", "installation", "usage"]

/-- `process_wiki_file(file_path)` (lines 305-366), with the file read result
passed explicitly: an empty parse yields no records; otherwise one batch of
summary records from the title and overview (or a 500-character truncation of
the first section), then per-section records for sections of at least 100
characters, chunked at 900 characters, with table-driven importance. -/
def process_wiki_file (file_path : String) (readResult : Option String) : List WikiRecord :=
  match parse_markdown_file readResult with
  | none => []
  | some parsed =>
    let category := categorize_wiki_content file_path
    let file_name := os_path_basename file_path
    let title :=
      match dictFind parsed.metadata "title" with
      | some t => t
      | none => pyReplace file_name ".md" ""
    let overview_text :=
      match dictFind parsed.sections "overview" with
      | some ov => ov
      | none =>
        match parsed.sections with
        | [] => ""
        | (_, first_section) :: _ =>
          if 500 < first_section.length then
            String.mk (first_section.toList.take 500) ++ "..."
          else first_section
    let summary_records :=
      if overview_text = "" then []
      else
        (extract_meaningful_content (title ++ ": " ++ overview_text) 800).map (fun chunk =>
          { text := chunk, category := "wiki_" ++ category, importance := 0.9,
            source_file := file_name, content_type := "summary",
            metadata := parsed.metadata })
    let section_records := parsed.sections.flatMap (fun nc =>
      if nc.2 = "" ∨ nc.2.length < 100 then []
      else
        let importance : ℚ := if important_sections.contains (pyLower nc.1) then 0.8 else 0.6
        (extract_meaningful_content nc.2 900).map (fun chunk =>
          { text := title ++ " - " ++ pyTitle (pyReplace nc.1 "_" " ") ++ ": " ++ chunk,
            category := "wiki_" ++ category, importance := importance,
            source_file := file_name, content_type := "section_" ++ nc.1,
            metadata := parsed.metadata }))
    summary_records ++ section_records

/-- The text escaping of `upload_embeddings.format_for_dfx`
(`upload_embeddings.py` line 17): escape double quotes, then replace newlines
and carriage returns by spaces. -/
def escape_text (t : String) : String :=
  pyReplace (pyReplace (pyReplace t "\"" "\\\"") "\n" " ") "\r" " "

/-- A record as consumed by `upload_embeddings.format_for_dfx`.  The numeric
fields arrive already rendered (Python formats the floats with `f"{f}"`;
float-to-decimal rendering is kept abstract here). -/
structure DfxRecord where
  text : String
  embeddingStrs : List String
  channel_id : String
  category : String
  importanceStr : String
  createdAtStr : String

/-- `format_for_dfx(embedding)` (`upload_embeddings.py` lines 10-28): render
the Candid record literal, with the escaped text in the `text` field. -/
def format_for_dfx (e : DfxRecord) : String :=
  let embedding_str := String.intercalate "; " (e.embeddingStrs.map (fun f => f ++ ":float32"))
  let escaped_text := escape_text e.text
  "record \x7b\n        text = \"" ++ escaped_text ++
  "\";\n        embedding = vec \x7b " ++ embedding_str ++
  " \x7d;\n        channel_id = \"" ++ e.channel_id ++
  "\";\n        category = \"" ++ e.category ++
  "\";\n        importance = " ++ e.importanceStr ++
  ":float32;\n        created_at = " ++ e.createdAtStr ++
  ":nat64;\n    \x7d"

/-- The per-character escaping described by the spec: a double quote becomes
backslash-quote, newline and carriage return become a space, everything else
is unchanged. -/
def escCharSpec (c : Char) : List Char :=
  if c = '"' then ['\\', '"']
  else if c = '\n' then [' ']
  else if c = '\r' then [' ']
  else [c]

/-- Environment of one `upload_embeddings.main` run: the outcome
`(success, message)` of the first delivery attempt for each record index, the
outcome of the retry attempt, and the operator's raw response to the one
prompt a failing record can raise. -/
structure UploadEnv where
  call1 : Nat → Bool × String
  call2 : Nat → Bool × String
  oper : Nat → String

/-- The transient-failure test of `upload_embeddings.main` line 86:
`"Timeout" in message or "network" in message.lower()`. -/
def isTransientMsg (m : String) : Bool :=
  pyContains "Timeout" m || pyContains "network" (pyLower m)

/-- One iteration of the `upload_embeddings.main` loop (lines 64-106) for
record `i`, threading the two counters exactly as the code does (failure
increments `failed_uploads` first; a successful retry then increments
`successful_uploads` and decrements `failed_uploads`).  Returns the updated
counters, the delivery calls made (the index, once per attempt), and whether
the loop continues. -/
def uploadStep (env : UploadEnv) (i succ fld : Nat) : Nat × Nat × List Nat × Bool :=
  match env.call1 i with
  | (true, _) => (succ + 1, fld, [i], true)
  | (false, m) =>
    let fld1 := fld + 1
    if isTransientMsg m then
      let retry := pyStrip (pyLower (env.oper i))
      if retry = "y" then
        match env.call2 i with
        | (true, _) => (succ + 1, fld1 - 1, [i, i], true)
        | (false, _) => (succ, fld1, [i, i], true)
      else if retry = "s" then (succ, fld1, [i], true)
      else (succ, fld1, [i], false)
    else
      let c := pyStrip (pyLower (env.oper i))
      if c = "y" ∨ c = "yes" then (succ, fld1, [i], true)
      else (succ, fld1, [i], false)

/-- Result of one upload run: final counters, the trace of delivery calls,
and the records whose loop iteration was entered, in order. -/
structure RunResult where
  successful : Nat
  failed : Nat
  calls : List Nat
  processed : List Nat
deriving DecidableEq

/-- The `for i in range(start_index, len(embeddings))` loop of
`upload_embeddings.main`, written by recursion on the number of remaining
indices. -/
def runCount (env : UploadEnv) : Nat → Nat → Nat → Nat → RunResult
  | 0, _, succ, fld => ⟨succ, fld, [], []⟩
  | n + 1, i, succ, fld =>
    let st := uploadStep env i succ fld
    if st.2.2.2 then
      let r := runCount env n (i + 1) st.1 st.2.1
      ⟨r.successful, r.failed, st.2.2.1 ++ r.calls, i :: r.processed⟩
    else ⟨st.1, st.2.1, st.2.2.1, [i]⟩

/-- The observable outputs of `upload_embeddings.main` (lines 50-115): the
final summary counters, the call trace, and the resume report, which is
printed only when at least one delivery failed and names index
`successful_uploads + start_index`. -/
structure MainOut where
  successful : Nat
  failed : Nat
  calls : List Nat
  processed : List Nat
  resumeReport : Option Nat
deriving DecidableEq

def upload_main (env : UploadEnv) (total start : Nat) : MainOut :=
  let r := runCount env (total - start) start 0 0
  ⟨r.successful, r.failed, r.calls, r.processed,
   if 0 < r.failed then some (r.successful + start) else none⟩

/-- The terminal outcome of one record in an `upload_embeddings.main` run:
it counts as successful when the first attempt succeeds, or when the first
attempt fails with a transient message, the operator answers `y`, and the
retry succeeds; it counts as failed otherwise. -/
def recordOutcome (env : UploadEnv) (i : Nat) : Bool :=
  (env.call1 i).1 ||
    (isTransientMsg (env.call1 i).2 &&
     (pyStrip (pyLower (env.oper i)) == "y") && (env.call2 i).1)

/-- Outcome of one batch remote call in `upload_to_canister_batch`:
success, a `subprocess.CalledProcessError`, or an `OSError` with its
`errno` (errno 7 is `E2BIG`, "Argument list too long" - the oversized
payload classification). -/
inductive BatchCallRes where
  | ok : BatchCallRes
  | calledProcessError : BatchCallRes
  | osError (errno : Nat) : BatchCallRes
deriving DecidableEq

/-- Environment of one `upload_to_canister_batch` run over records of
type `α`: the outcome of the batched remote call on a given batch, and the
outcome of a single-record delivery. -/
structure BatchEnv (α : Type) where
  batchCall : List α → BatchCallRes
  singleCall : α → Bool

/-- A remote call event in the batch-upload trace. -/
inductive UpEvent (α : Type) where
  | batch (b : List α) : UpEvent α
  | single (r : α) : UpEvent α
deriving DecidableEq

/-- The oversized-payload fallback loop of `upload_to_canister_batch`
(`generate_lain_personality.py` lines 513-517): deliver the batch's records
singly, in order, counting successes, and abort the whole function at the
first single-record failure.  Returns (all records delivered successfully,
successes in this batch, records attempted singly, in order). -/
def singleFallback (single : α → Bool) : List α → Bool × Nat × List α
  | [] => (true, 0, [])
  | r :: rest =>
    if single r then
      let t := singleFallback single rest
      (t.1, t.2.1 + 1, r :: t.2.2)
    else (false, 0, [r])

/-- The batch loop of `upload_to_canister_batch` (lines 488-520) over the
already-sliced batches: a successful batch call counts the whole batch; a
`CalledProcessError` returns `False`; an `OSError` with errno 7 triggers the
automatic single-record fallback (any other `OSError` returns `False`).
Returns (no early `return False` was taken, `successful_uploads`, trace of
remote calls). -/
def uploadBatchLoop (env : BatchEnv α) : List (List α) → Bool × Nat × List (UpEvent α)
  | [] => (true, 0, [])
  | b :: rest =>
    match env.batchCall b with
    | BatchCallRes.ok =>
      let t := uploadBatchLoop env rest
      (t.1, b.length + t.2.1, UpEvent.batch b :: t.2.2)
    | BatchCallRes.calledProcessError => (false, 0, [UpEvent.batch b])
    | BatchCallRes.osError e =>
      if e = 7 then
        let f := singleFallback env.singleCall b
        if f.1 then
          let t := uploadBatchLoop env rest
          (t.1, f.2.1 + t.2.1, UpEvent.batch b :: (f.2.2.map UpEvent.single ++ t.2.2))
        else (false, f.2.1, UpEvent.batch b :: f.2.2.map UpEvent.single)
      else (false, 0, [UpEvent.batch b])

/-- Slice a list into consecutive batches of `bs` records
(`embeddings[i:i+batch_size]` for `i in range(0, len(embeddings),
batch_size)`).  `fuel` bounds the number of batches; the list's length
suffices for `bs` at least 1 (Python raises `ValueError` on step 0). -/
def chunkListAux (bs : Nat) : Nat → List α → List (List α)
  | _, [] => []
  | 0, xs => [xs]
  | fuel + 1, xs => xs.take bs :: chunkListAux bs fuel (xs.drop bs)

def chunkList (bs : Nat) (xs : List α) : List (List α) := chunkListAux bs xs.length xs

/-- `upload_to_canister_batch(embeddings, batch_size)` (lines 481-523):
run the batch loop over the slices; the returned flag is
`successful_uploads == len(embeddings)` when the loop completes, `False`
when any branch returned early. -/
def upload_to_canister_batch (env : BatchEnv α) (embeddings : List α) (batch_size : Nat) :
    Bool × Nat × List (UpEvent α) :=
  let t := uploadBatchLoop env (chunkList batch_size embeddings)
  (t.1 && (t.2.1 == embeddings.length), t.2.1, t.2.2)

theorem dropWhile_eq_cons_head_false {α} {p : α → Bool} :
    ∀ {l : List α} {h : α} {t : List α}, l.dropWhile p = h :: t → p h = false := by
  intro l
  induction l with
  | nil => intro h t hh; simp [List.dropWhile] at hh
  | cons a l ih =>
    intro h t hh
    by_cases hp : p a
    · rw [List.dropWhile_cons, if_pos hp] at hh
      exact ih hh
    · rw [List.dropWhile_cons, if_neg hp] at hh
      cases hh
      simpa using hp

theorem getLast?_dropWhile {α} {p : α → Bool} :
    ∀ {l : List α}, l.dropWhile p ≠ [] → (l.dropWhile p).getLast? = l.getLast? := by
  intro l
  induction l with
  | nil => intro h; simp [List.dropWhile] at h
  | cons a l ih =>
    intro h
    by_cases hp : p a
    · rw [List.dropWhile_cons, if_pos hp] at h ⊢
      have hl : l ≠ [] := by
        intro he; rw [he] at h; simp [List.dropWhile] at h
      rw [ih h]
      cases l with
      | nil => exact absurd rfl hl
      | cons b t => rw [List.getLast?_cons_cons]
    · rw [List.dropWhile_cons, if_neg hp]

theorem dropWhile_head_false {α} {p : α → Bool} {l : List α} {h : α} {t : List α}
    (hh : l.dropWhile p = h :: t) : p h = false :=
  dropWhile_eq_cons_head_false hh

/-- The head of a nonempty stripped string is not whitespace. -/
theorem pyStripL_head_false {s : List Char} {h : Char} {t : List Char}
    (hs : pyStripL s = h :: t) : wsChar h = false := by
  unfold pyStripL dropEndWhile at hs
  set u := s.dropWhile wsChar with hu
  set v := u.reverse.dropWhile wsChar with hv
  have hvne : v ≠ [] := by
    intro he
    rw [he] at hs
    simp at hs
  have h1 : v.getLast? = u.reverse.getLast? := getLast?_dropWhile hvne
  have h2 : u.reverse.getLast? = u.head? := List.getLast?_reverse u
  have h3 : v.reverse.head? = v.getLast? := List.head?_reverse v
  rw [hs] at h3
  have h4 : u.head? = some h := by rw [← h2, ← h1, ← h3]; rfl
  have h5 : ∃ t2, u = h :: t2 := by
    cases hc : u with
    | nil => rw [hc] at h4; simp at h4
    | cons a b =>
      rw [hc] at h4
      simp at h4
      exact ⟨b, by rw [h4]⟩
  obtain ⟨t2, ht2⟩ := h5
  exact dropWhile_head_false (show List.dropWhile wsChar s = h :: t2 from ht2 ▸ hu.symm)

/-- Stripping a string of the form `h ++ mid ++ ". "` with a non-whitespace
head removes exactly the final space. -/
theorem pyStripL_closes {h : Char} (mid : List Char) (hh : wsChar h = false) :
    pyStripL (h :: (mid ++ ['.', ' '])) = h :: (mid ++ ['.']) := by
  unfold pyStripL dropEndWhile
  rw [List.dropWhile_cons, if_neg (by simp [hh])]
  have hrev : (h :: (mid ++ ['.', ' '])).reverse = ' ' :: '.' :: (mid.reverse ++ [h]) := by
    simp
  rw [hrev]
  rw [List.dropWhile_cons, if_pos (by simp [wsChar])]
  rw [List.dropWhile_cons, if_neg (by simp [wsChar])]
  simp

/-- A string whose ends are not whitespace is its own strip. -/
theorem pyStripL_eq_self {l : List Char}
    (h1 : ∀ h, l.head? = some h → wsChar h = false)
    (h2 : ∀ c, l.getLast? = some c → wsChar c = false) :
    pyStripL l = l := by
  cases l with
  | nil => rfl
  | cons a t =>
    unfold pyStripL dropEndWhile
    rw [List.dropWhile_cons, if_neg (by simp [h1 a rfl])]
    have hne : (a :: t).reverse ≠ [] := by simp
    cases hrv : (a :: t).reverse with
    | nil => exact absurd hrv hne
    | cons c r =>
      have hc : (a :: t).getLast? = some c := by
        rw [← List.head?_reverse, hrv]; rfl
      rw [List.dropWhile_cons, if_neg (by simp [h2 c hc])]
      rw [← hrv, List.reverse_reverse]

/-- Invariant bound for the greedy accumulation loop: every emitted chunk is
within `maxc + 1` characters, or is a single oversized stripped sentence of
the sentence list `S` followed by a period. -/
theorem greedyChunksL_bound (maxc : Nat) (S : List (List Char)) :
    ∀ (sents : List (List Char)) (cur : List Char),
      (∀ s ∈ sents, s ∈ S) →
      (cur = [] ∨ ∃ h mid, cur = h :: (mid ++ ['.', ' ']) ∧ wsChar h = false ∧
        ((h :: (mid ++ ['.'])).length ≤ maxc + 1 ∨
         ∃ s ∈ S, maxc < (pyStripL s).length ∧ h :: (mid ++ ['.']) = pyStripL s ++ ['.'])) →
      ∀ chunk ∈ greedyChunksL maxc sents cur,
        chunk.length ≤ maxc + 1 ∨
        ∃ s ∈ S, maxc < (pyStripL s).length ∧ chunk = pyStripL s ++ ['.'] := by
  intro sents
  induction sents with
  | nil =>
    intro cur hsub hinv chunk hc
    rcases hinv with hnil | ⟨h, mid, hcur, hws, hbound⟩
    · subst hnil; simp [greedyChunksL] at hc
    · subst hcur
      simp [greedyChunksL] at hc
      rw [pyStripL_closes mid hws] at hc
      subst hc
      exact hbound
  | cons s rest ih =>
    intro cur hsub hinv chunk hc
    have hsS : s ∈ S := hsub s (by simp)
    have hsub2 : ∀ x ∈ rest, x ∈ S := fun x hx => hsub x (by simp [hx])
    by_cases hemp : (pyStripL s).isEmpty
    · simp only [greedyChunksL, hemp, if_true] at hc
      exact ih cur hsub2 hinv chunk hc
    · obtain ⟨sh, st, hs1⟩ : ∃ sh st, pyStripL s = sh :: st := by
        cases hx : pyStripL s with
        | nil => rw [hx] at hemp; simp at hemp
        | cons a b => exact ⟨a, b, rfl⟩
      have hshws : wsChar sh = false := pyStripL_head_false hs1
      by_cases hfit : cur.length + (pyStripL s).length ≤ maxc
      · simp only [greedyChunksL, hemp, if_false, Bool.false_eq_true, hfit, if_true] at hc
        refine ih (cur ++ pyStripL s ++ ['.', ' ']) hsub2 ?_ chunk hc
        rcases hinv with hnil | ⟨h, mid, hcur, hws, hbound⟩
        · subst hnil
          refine Or.inr ⟨sh, st, by simp [hs1], hshws, Or.inl ?_⟩
          have : (pyStripL s).length ≤ maxc := by simpa using hfit
          rw [hs1] at this
          simp at this ⊢
          omega
        · subst hcur
          refine Or.inr ⟨h, (mid ++ ['.', ' ']) ++ pyStripL s, by simp, hws, Or.inl ?_⟩
          simp at hfit ⊢
          omega
      · by_cases hcure : cur = []
        · subst hcure
          simp only [greedyChunksL, hemp, if_false, Bool.false_eq_true, hfit, List.isEmpty_nil,
            if_true] at hc
          have hover : maxc < (pyStripL s).length := by simp at hfit; omega
          refine ih (pyStripL s ++ ['.', ' ']) hsub2
            (Or.inr ⟨sh, st, by simp [hs1], hshws, Or.inr ⟨s, hsS, hover, by simp [hs1]⟩⟩)
            chunk hc
        · have hcure2 : cur.isEmpty = false := by
            cases cur with
            | nil => exact absurd rfl hcure
            | cons a b => rfl
          simp only [greedyChunksL, hemp, if_false, Bool.false_eq_true, hfit, hcure2,
            List.mem_cons] at hc
          rcases hc with hc | hc
          · rcases hinv with hnil | ⟨h, mid, hcur, hws, hbound⟩
            · exact absurd hnil hcure
            · subst hcur
              rw [pyStripL_closes mid hws] at hc
              subst hc
              exact hbound
          · refine ih (pyStripL s ++ ['.', ' ']) hsub2 ?_ chunk hc
            by_cases hsfit : (pyStripL s).length ≤ maxc
            · refine Or.inr ⟨sh, st, by simp [hs1], hshws, Or.inl ?_⟩
              rw [hs1] at hsfit
              simp at hsfit ⊢
              omega
            · refine Or.inr ⟨sh, st, by simp [hs1], hshws,
                Or.inr ⟨s, hsS, by omega, by simp [hs1]⟩⟩

/-- C1 (amended): every chunk returned by `extract_meaningful_content` has
length at most `max_chars + 1` (the appended sentence separator `". "` lets a
closed chunk end one character past `max_chars` after stripping), except a
chunk consisting of a single stripped sentence whose own length exceeds
`max_chars`, which is emitted as that sentence followed by a period. -/
theorem extract_chunk_bound (content : String) (maxc : Nat) (chunk : String)
    (hc : chunk ∈ extract_meaningful_content content maxc) :
    chunk.length ≤ maxc + 1 ∨
    ∃ s ∈ splitSentsL (cleanTextL content.toList), maxc < (pyStripL s).length ∧
      chunk.toList = pyStripL s ++ ['.'] := by
  simp only [extract_meaningful_content] at hc
  obtain ⟨c, hcm, hmk⟩ := List.mem_map.1 hc
  subst hmk
  have hcf := (List.mem_filter.1 hcm).1
  by_cases hlen : (cleanTextL content.toList).length ≤ maxc
  · rw [if_pos hlen] at hcf
    simp at hcf
    subst hcf
    left
    show (cleanTextL content.toList).length ≤ maxc + 1
    omega
  · rw [if_neg hlen] at hcf
    have hb := greedyChunksL_bound maxc (splitSentsL (cleanTextL content.toList))
      (splitSentsL (cleanTextL content.toList)) [] (fun _ h => h) (Or.inl rfl) c hcf
    rcases hb with hb | ⟨s, hsm, hso, hse⟩
    · left; exact hb
    · right; exact ⟨s, hsm, hso, hse⟩

/-- The input on which the original C1 bound fails: three sentences of
lengths 25, 25 and 4. -/
def c1text : String := "aaaaaaaaaaaaaaaaaaaaaaaaa.bbbbbbbbbbbbbbbbbbbbbbbbb.dddd"

/-- The 53-character two-sentence chunk produced from `c1text` at
`max_chars = 52`. -/
def c1chunk : String := "aaaaaaaaaaaaaaaaaaaaaaaaa. bbbbbbbbbbbbbbbbbbbbbbbbb."

/-- C1 counterexample: at `max_chars = 52` the chunker emits a chunk of
length 53 that consists of two sentences, neither of which exceeds 52
characters, so a chunk can exceed `max_chars` without being a single
oversized sentence. -/
theorem extract_chunk_bound_cex :
    ∃ chunk ∈ extract_meaningful_content c1text 52, 52 < chunk.length ∧
      ∀ s ∈ splitSentsL (cleanTextL c1text.toList),
        ¬(52 < (pyStripL s).length ∧ chunk.toList = pyStripL s ++ ['.']) := by
  decide

/-- C1 witness: the amended bound evaluated on the concrete overflowing
chunk. -/
theorem extract_chunk_bound_wit :
    c1chunk ∈ extract_meaningful_content c1text 52 ∧
    (c1chunk.length ≤ 52 + 1 ∨
     ∃ s ∈ splitSentsL (cleanTextL c1text.toList), 52 < (pyStripL s).length ∧
       c1chunk.toList = pyStripL s ++ ['.']) :=
  ⟨by decide, extract_chunk_bound c1text 52 c1chunk (by decide)⟩

/-- Every piece produced by `str.split()` is nonempty and whitespace-free. -/
theorem splitWsAux_parts :
    ∀ (l acc : List Char), (∀ c ∈ acc, wsChar c = false) →
      ∀ p ∈ splitWsAux l acc, p ≠ [] ∧ ∀ c ∈ p, wsChar c = false := by
  intro l
  induction l with
  | nil =>
    intro acc hacc p hp
    by_cases he : acc.isEmpty
    · simp [splitWsAux, he] at hp
    · simp only [splitWsAux, he, Bool.false_eq_true, if_false, List.mem_singleton] at hp
      subst hp
      constructor
      · intro h
        rw [List.reverse_eq_nil_iff] at h
        rw [h] at he
        simp at he
      · intro c hc
        exact hacc c (by simpa using hc)
  | cons a t ih =>
    intro acc hacc p hp
    by_cases hws : wsChar a
    · by_cases he : acc.isEmpty
      · simp only [splitWsAux, hws, if_true, he] at hp
        exact ih [] (by simp) p hp
      · simp only [splitWsAux, hws, if_true, he, Bool.false_eq_true, if_false,
          List.mem_cons] at hp
        rcases hp with hp | hp
        · subst hp
          constructor
          · intro h
            rw [List.reverse_eq_nil_iff] at h
            rw [h] at he
            simp at he
          · intro c hc
            exact hacc c (by simpa using hc)
        · exact ih [] (by simp) p hp
    · simp only [splitWsAux, hws, Bool.false_eq_true, if_false] at hp
      refine ih (a :: acc) ?_ p hp
      intro c hc
      rcases List.mem_cons.1 hc with hc | hc
      · subst hc
        exact Bool.eq_false_iff.2 hws
      · exact hacc c hc

theorem mem_of_getLast? {α} {l : List α} {c : α} (h : l.getLast? = some c) : c ∈ l := by
  have h2 : l.reverse.head? = some c := by rw [List.head?_reverse]; exact h
  cases hrv : l.reverse with
  | nil => rw [hrv] at h2; simp at h2
  | cons a b =>
    rw [hrv] at h2
    simp only [List.head?_cons, Option.some.injEq] at h2
    have : c ∈ l.reverse := by rw [hrv, ← h2]; simp
    simpa using this

/-- The joined split has a non-whitespace head and a non-whitespace last
character (when nonempty). -/
theorem joinSpace_edges :
    ∀ (parts : List (List Char)),
      (∀ p ∈ parts, p ≠ [] ∧ ∀ c ∈ p, wsChar c = false) →
      (∀ h, (joinSpaceL parts).head? = some h → wsChar h = false) ∧
      (∀ c, (joinSpaceL parts).getLast? = some c → wsChar c = false) := by
  intro parts
  induction parts with
  | nil => intro _; constructor <;> intro x hx <;> simp [joinSpaceL] at hx
  | cons p rest ih =>
    intro hp
    have hpne : p ≠ [] := (hp p (by simp)).1
    have hpws : ∀ c ∈ p, wsChar c = false := (hp p (by simp)).2
    cases rest with
    | nil =>
      constructor
      · intro h hh
        simp only [joinSpaceL, List.intersperse_singleton, List.flatten_cons,
          List.flatten_nil, List.append_nil] at hh
        exact hpws h (by
          cases p with
          | nil => exact absurd rfl hpne
          | cons a b => cases hh; simp)
      · intro c hc
        simp only [joinSpaceL, List.intersperse_singleton, List.flatten_cons,
          List.flatten_nil, List.append_nil] at hc
        exact hpws c (mem_of_getLast? hc)
    | cons q t =>
      have hrest : ∀ x ∈ q :: t, x ≠ [] ∧ ∀ c ∈ x, wsChar c = false :=
        fun x hx => hp x (by simp [hx])
      have ihr := ih hrest
      have hqne : q ≠ [] := (hrest q (by simp)).1
      have hjne : joinSpaceL (q :: t) ≠ [] := by
        intro hj
        cases q with
        | nil => exact absurd rfl hqne
        | cons a b =>
          cases t with
          | nil => simp [joinSpaceL] at hj
          | cons r u =>
            simp only [joinSpaceL, List.intersperse_cons_cons, List.flatten_cons] at hj
            simp at hj
      have hjoin : joinSpaceL (p :: q :: t) = p ++ [' '] ++ joinSpaceL (q :: t) := by
        simp only [joinSpaceL, List.intersperse_cons_cons, List.flatten_cons]
        simp
      constructor
      · intro h hh
        rw [hjoin, List.append_assoc,
          List.head?_append_of_ne_nil _ hpne] at hh
        refine hpws h ?_
        cases p with
        | nil => exact absurd rfl hpne
        | cons a b => cases hh; simp
      · intro c hc
        rw [hjoin, List.append_assoc,
          List.getLast?_append_of_ne_nil _ (show ([' '] ++ joinSpaceL (q :: t)) ≠ [] by simp)] at hc
        rw [List.getLast?_append_of_ne_nil _ hjne] at hc
        exact ihr.2 c hc

/-- The cleaned text is its own strip: the final
`' '.join(cleaned.split())` leaves no edge whitespace. -/
theorem pyStripL_cleanTextL (l : List Char) : pyStripL (cleanTextL l) = cleanTextL l := by
  have hparts := splitWsAux_parts
    (collapseNl (((removeLinksAux (removeInlineAux (removeFences l).length
      (removeFences l)).length (removeInlineAux (removeFences l).length
      (removeFences l))).filter (fun c => !mdPunct c)))) [] (by simp)
  have hedges := joinSpace_edges _ hparts
  exact pyStripL_eq_self hedges.1 hedges.2

/-- C5 (amended): when the cleaned input fits in `max_chars`, the chunker
returns exactly one chunk equal to the cleaned input, provided the cleaned
input is longer than the 50-character noise floor; a cleaned input of at most
50 characters is filtered out, yielding no chunks. -/
theorem extract_small_input (content : String) (maxc : Nat)
    (hlen : (cleanText content).length ≤ maxc) :
    extract_meaningful_content content maxc =
      if 50 < (cleanText content).length then [cleanText content] else [] := by
  have hlen2 : (cleanTextL content.toList).length ≤ maxc := hlen
  show _ = if 50 < (cleanTextL content.toList).length
           then [String.mk (cleanTextL content.toList)] else []
  simp only [extract_meaningful_content, if_pos hlen2]
  by_cases h50 : 50 < (cleanTextL content.toList).length
  · rw [if_pos h50]
    simp only [List.filter, pyStripL_cleanTextL]
    rw [decide_eq_true (show 50 < (cleanTextL content.toList).length from h50)]
    rfl
  · rw [if_neg h50]
    simp only [List.filter, pyStripL_cleanTextL]
    rw [decide_eq_false (show ¬50 < (cleanTextL content.toList).length from h50)]
    rfl

/-- A 60-character plain input for the C5 witness. -/
def c5text : String :=
  "xxxxxxxxxxxxxxxxxxxxxxxxxxxxxxxxxxxxxxxxxxxxxxxxxxxxxxxxxxxx"

/-- C5 witness: the amended statement evaluated on a 60-character input at
`max_chars = 1000`. -/
theorem extract_small_input_wit :
    (cleanText c5text).length ≤ 1000 ∧
    extract_meaningful_content c5text 1000 =
      (if 50 < (cleanText c5text).length then [cleanText c5text] else []) :=
  ⟨by decide, extract_small_input c5text 1000 (by decide)⟩

/-- C5 counterexample: a 10-character input is under `max_chars = 1000`, yet
the chunker returns no chunks at all (the single chunk falls below the
50-character floor), not one chunk equal to the cleaned input. -/
theorem extract_small_input_cex :
    (cleanText "Tiny text.").length ≤ 1000 ∧
    extract_meaningful_content "Tiny text." 1000 = [] ∧
    ([] : List String) ≠ [cleanText "Tiny text."] := by
  refine ⟨by decide, by decide, by decide⟩

/-- The example document of the C4 scenario. -/
def c4doc : String := "# Title\nIntro text.\n## Features\nFeature text that is long..."

/-- C4 counterexample: the overview section produced by the parser is the
whole stripped span before the first level-2 heading, which includes the
`# Title` line, so it is not the claimed `"Intro text."`. -/
theorem parse_example_cex :
    dictFind (parse_markdown_content c4doc).sections "overview" =
      some "# Title\nIntro text." ∧
    ("# Title\nIntro text." : String) ≠ "Intro text." :=
  ⟨by decide, by decide⟩

/-- C4 (amended): the example document yields title `"Title"` and exactly the
sections `overview ↦ "# Title\nIntro text."` (the span before the first
level-2 heading, title line included) and
`features ↦ "Feature text that is long..."`. -/
theorem parse_example :
    (parse_markdown_content c4doc).sections =
      [("overview", "# Title\nIntro text."),
       ("features", "Feature text that is long...")] ∧
    dictFind (parse_markdown_content c4doc).metadata "title" = some "Title" :=
  ⟨by decide, by decide⟩

theorem find?_first {α} (p : α → Bool) :
    ∀ (l : List α) (k : Nat) (hk : k < l.length),
      p (l.get ⟨k, hk⟩) = true →
      (∀ (j : Nat) (hj : j < k), p (l.get ⟨j, Nat.lt_trans hj hk⟩) = false) →
      l.find? p = some (l.get ⟨k, hk⟩) := by
  intro l
  induction l with
  | nil => intro k hk; simp at hk
  | cons a t ih =>
    intro k hk hp hmin
    cases k with
    | zero =>
      simp only [List.get] at hp ⊢
      rw [List.find?_cons_of_pos _ hp]
    | succ k =>
      have ha : p a = false := hmin 0 (Nat.succ_pos k)
      rw [List.find?_cons_of_neg _ (by simp [ha])]
      exact ih k (Nat.lt_of_succ_lt_succ hk) hp
        (fun j hj => hmin (j + 1) (Nat.succ_lt_succ hj))

/-- C6 counterexample: a path under the wiki root matching no categorization
rule is assigned the fallback category `"general-docs"`, not `"general"`. -/
theorem categorize_fallback_cex :
    categorize_wiki_content "/Users/laincorp/LainCorp/memex-wiki/docs/notes.txt" =
      "general-docs" ∧
    ("general-docs" : String) ≠ "general" :=
  ⟨by decide, by decide⟩

/-- C6 (amended): on the normalized (root-relative) path, the categorizer
returns the category of the first rule in declaration order with a matching
pattern, and the reserved fallback category `"general-docs"` when no rule
matches. -/
theorem categorize_first_match (file_path : String) :
    ((∀ rule ∈ WIKI_CATEGORIZATION,
        ruleMatches (os_path_relpath file_path wikiDocsRoot) rule = false) →
      categorize_wiki_content file_path = "general-docs") ∧
    (∀ (k : Nat) (hk : k < WIKI_CATEGORIZATION.length),
      ruleMatches (os_path_relpath file_path wikiDocsRoot)
        (WIKI_CATEGORIZATION.get ⟨k, hk⟩) = true →
      (∀ (j : Nat) (hj : j < k),
        ruleMatches (os_path_relpath file_path wikiDocsRoot)
          (WIKI_CATEGORIZATION.get ⟨j, Nat.lt_trans hj hk⟩) = false) →
      categorize_wiki_content file_path = (WIKI_CATEGORIZATION.get ⟨k, hk⟩).1) := by
  constructor
  · intro hnone
    simp only [categorize_wiki_content]
    rw [List.find?_eq_none.2 (fun x hx => by simp [hnone x hx])]
  · intro k hk hp hmin
    simp only [categorize_wiki_content]
    rw [find?_first _ _ k hk hp hmin]

/-- The path used in the C6 witness: `glossary.md` matches only the third
rule (`meta-docs`). -/
def c6path : String := "/Users/laincorp/LainCorp/memex-wiki/docs/glossary.md"

/-- C6 witness: the first-match clause evaluated at `glossary.md`, whose
first matching rule is the third one. -/
theorem categorize_first_match_wit :
    ruleMatches (os_path_relpath c6path wikiDocsRoot)
      (WIKI_CATEGORIZATION.get ⟨2, by decide⟩) = true ∧
    categorize_wiki_content c6path = (WIKI_CATEGORIZATION.get ⟨2, by decide⟩).1 := by
  refine ⟨by decide, (categorize_first_match c6path).2 2 (by decide) (by decide) ?_⟩
  have h2 : ∀ m : Fin WIKI_CATEGORIZATION.length, m.val < 2 →
      ruleMatches (os_path_relpath c6path wikiDocsRoot) (WIKI_CATEGORIZATION.get m) = false := by
    decide
  intro j hj
  exact h2 ⟨j, Nat.lt_trans hj (by decide)⟩ hj

/-- C7: an unreadable document parses to the empty result (the exception
branch logs and returns the empty dictionary, modelled as `none`), the
caller `process_wiki_file` turns that empty result into zero records without
aborting, and a readable document always parses to a full result - the
embedded parser is a total function, so no input makes it raise. -/
theorem parse_failure_skips :
    parse_markdown_file none = none ∧
    (∀ content, parse_markdown_file (some content) = some (parse_markdown_content content)) ∧
    (∀ file_path, process_wiki_file file_path none = []) :=
  ⟨rfl, fun _ => rfl, fun _ => rfl⟩

/-- The delivery calls one loop iteration makes: the record's index once,
or twice when a transient failure is retried on operator approval. -/
def stepCalls (env : UploadEnv) (i : Nat) : List Nat :=
  if (env.call1 i).1 then [i]
  else if isTransientMsg (env.call1 i).2 ∧ pyStrip (pyLower (env.oper i)) = "y" then [i, i]
  else [i]

/-- Whether the loop continues past record `i` (no operator abort). -/
def stepCont (env : UploadEnv) (i : Nat) : Bool :=
  if (env.call1 i).1 then true
  else if isTransientMsg (env.call1 i).2 then
    decide (pyStrip (pyLower (env.oper i)) = "y" ∨ pyStrip (pyLower (env.oper i)) = "s")
  else
    decide (pyStrip (pyLower (env.oper i)) = "y" ∨ pyStrip (pyLower (env.oper i)) = "yes")

/-- One loop iteration, characterized: the counters move by exactly one
between them, according to the record's terminal outcome. -/
theorem uploadStep_eq (env : UploadEnv) (i succ fld : Nat) :
    uploadStep env i succ fld =
      (succ + (if recordOutcome env i then 1 else 0),
       fld + (if recordOutcome env i then 0 else 1),
       stepCalls env i, stepCont env i) := by
  rcases hc1 : env.call1 i with ⟨b, m⟩
  cases b with
  | true => simp [uploadStep, recordOutcome, stepCalls, stepCont, hc1]
  | false =>
    by_cases ht : isTransientMsg m
    · by_cases hy : pyStrip (pyLower (env.oper i)) = "y"
      · rcases hc2 : env.call2 i with ⟨b2, m2⟩
        cases b2 with
        | true =>
          simp [uploadStep, recordOutcome, stepCalls, stepCont, hc1, hc2, ht, hy]
        | false =>
          simp [uploadStep, recordOutcome, stepCalls, stepCont, hc1, hc2, ht, hy]
      · by_cases hs : pyStrip (pyLower (env.oper i)) = "s"
        · simp [uploadStep, recordOutcome, stepCalls, stepCont, hc1, ht, hy, hs]
        · simp [uploadStep, recordOutcome, stepCalls, stepCont, hc1, ht, hy, hs]
    · by_cases hyy : pyStrip (pyLower (env.oper i)) = "y" ∨ pyStrip (pyLower (env.oper i)) = "yes"
      · simp [uploadStep, recordOutcome, stepCalls, stepCont, hc1, ht, hyy]
      · simp [uploadStep, recordOutcome, stepCalls, stepCont, hc1, ht, hyy]

theorem uploadStep_eq_pos (env : UploadEnv) (i succ fld : Nat)
    (ho : recordOutcome env i = true) :
    uploadStep env i succ fld = (succ + 1, fld, stepCalls env i, stepCont env i) := by
  rw [uploadStep_eq, ho]
  simp

theorem uploadStep_eq_neg (env : UploadEnv) (i succ fld : Nat)
    (ho : recordOutcome env i = false) :
    uploadStep env i succ fld = (succ, fld + 1, stepCalls env i, stepCont env i) := by
  rw [uploadStep_eq, ho]
  simp

/-- Every call an iteration makes targets its own record. -/
theorem stepCalls_mem (env : UploadEnv) (i : Nat) : ∀ j ∈ stepCalls env i, j = i := by
  intro j hj
  unfold stepCalls at hj
  split at hj
  · simpa using hj
  · split at hj <;> simpa using hj

/-- Master invariant of the upload loop: the counters start from their
initial values and each processed record adds one to exactly one of them
according to its terminal outcome; the processed records form the contiguous
index range starting at `i`; and every delivery call stays inside the
processed window. -/
theorem runCount_spec (env : UploadEnv) :
    ∀ (n i succ fld : Nat),
      (runCount env n i succ fld).successful
        = succ + ((runCount env n i succ fld).processed.filter
            (fun j => recordOutcome env j)).length ∧
      (runCount env n i succ fld).failed
        = fld + ((runCount env n i succ fld).processed.filter
            (fun j => !recordOutcome env j)).length ∧
      (runCount env n i succ fld).processed
        = List.range' i (runCount env n i succ fld).processed.length ∧
      (runCount env n i succ fld).processed.length ≤ n ∧
      (∀ j ∈ (runCount env n i succ fld).calls, i ≤ j ∧ j < i + n) := by
  intro n
  induction n with
  | zero => intro i succ fld; simp [runCount]
  | succ n ih =>
    intro i succ fld
    cases ho : recordOutcome env i with
    | true =>
      simp only [runCount, uploadStep_eq_pos env i succ fld ho]
      by_cases hcont : stepCont env i = true
      · rw [if_pos hcont]
        obtain ⟨ih1, ih2, ih3, ih4, ih5⟩ := ih (i + 1) (succ + 1) fld
        refine ⟨?_, ?_, ?_, ?_, ?_⟩
        · rw [List.filter_cons, if_pos (by simpa using ho), List.length_cons, ih1]
          omega
        · rw [List.filter_cons, if_neg (by simp [ho]), ih2]
        · simp only [List.length_cons]
          rw [List.range'_succ, ← ih3]
        · simpa using ih4
        · intro j hj
          rcases List.mem_append.1 hj with hj | hj
          · have := stepCalls_mem env i j hj
            omega
          · have := ih5 j hj
            omega
      · rw [if_neg hcont]
        refine ⟨?_, ?_, ?_, by simp, ?_⟩
        · rw [List.filter_cons, if_pos (by simpa using ho)]
          simp
        · rw [List.filter_cons, if_neg (by simp [ho])]
          simp
        · simp [List.range'_succ]
        · intro j hj
          have := stepCalls_mem env i j hj
          omega
    | false =>
      simp only [runCount, uploadStep_eq_neg env i succ fld ho]
      by_cases hcont : stepCont env i = true
      · rw [if_pos hcont]
        obtain ⟨ih1, ih2, ih3, ih4, ih5⟩ := ih (i + 1) succ (fld + 1)
        refine ⟨?_, ?_, ?_, ?_, ?_⟩
        · rw [List.filter_cons, if_neg (by simp [ho]), ih1]
        · rw [List.filter_cons, if_pos (by simp [ho]), List.length_cons, ih2]
          omega
        · simp only [List.length_cons]
          rw [List.range'_succ, ← ih3]
        · simpa using ih4
        · intro j hj
          rcases List.mem_append.1 hj with hj | hj
          · have := stepCalls_mem env i j hj
            omega
          · have := ih5 j hj
            omega
      · rw [if_neg hcont]
        refine ⟨?_, ?_, ?_, by simp, ?_⟩
        · rw [List.filter_cons, if_neg (by simp [ho])]
          simp
        · rw [List.filter_cons, if_pos (by simp [ho])]
          simp
        · simp [List.range'_succ]
        · intro j hj
          have := stepCalls_mem env i j hj
          omega

theorem filter_length_split {α} (p : α → Bool) :
    ∀ l : List α, (l.filter p).length + (l.filter (fun x => !p x)).length = l.length := by
  intro l
  induction l with
  | nil => rfl
  | cons a t ih =>
    by_cases h : p a
    · rw [List.filter_cons, if_pos (by simpa using h),
        List.filter_cons, if_neg (by simp [h])]
      simp only [List.length_cons]
      omega
    · rw [List.filter_cons, if_neg (by simpa using h),
        List.filter_cons, if_pos (by simp [h])]
      simp only [List.length_cons]
      omega

/-- When every first delivery attempt succeeds, the loop walks the whole
remaining range, calling each record exactly once, in order. -/
theorem runCount_all_success (env : UploadEnv) (hall : ∀ j, (env.call1 j).1 = true) :
    ∀ (n i succ fld : Nat),
      (runCount env n i succ fld).calls = List.range' i n ∧
      (runCount env n i succ fld).processed = List.range' i n := by
  intro n
  induction n with
  | zero => intro i succ fld; simp [runCount]
  | succ n ih =>
    intro i succ fld
    have hstep : uploadStep env i succ fld = (succ + 1, fld, [i], true) := by
      rcases hc1 : env.call1 i with ⟨b, m⟩
      have := hall i
      rw [hc1] at this
      subst this
      simp [uploadStep, hc1]
    simp only [runCount, hstep, if_true]
    obtain ⟨ih1, ih2⟩ := ih (i + 1) (succ + 1) fld
    rw [List.range'_succ]
    exact ⟨by rw [ih1]; rfl, by rw [ih2]⟩

/-- C8: in every run, each processed record increments exactly one of the two
counters, according to its terminal outcome: the successful counter counts
exactly the processed records whose outcome is success, the failed counter
counts exactly the rest, their sum is the number of processed records (each
record counted once - the processed records form a duplicate-free range),
and a record that fails transiently, is retried on operator approval, and
then succeeds has outcome success, so it adds one to the successful counter
and nothing to the failed counter. -/
theorem upload_counters (env : UploadEnv) (total start : Nat) :
    (upload_main env total start).successful =
      ((upload_main env total start).processed.filter
        (fun j => recordOutcome env j)).length ∧
    (upload_main env total start).failed =
      ((upload_main env total start).processed.filter
        (fun j => !recordOutcome env j)).length ∧
    (upload_main env total start).successful + (upload_main env total start).failed =
      (upload_main env total start).processed.length ∧
    (upload_main env total start).processed.Nodup ∧
    (∀ i, (env.call1 i).1 = false → isTransientMsg (env.call1 i).2 = true →
      pyStrip (pyLower (env.oper i)) = "y" → (env.call2 i).1 = true →
      recordOutcome env i = true) := by
  obtain ⟨h1, h2, h3, _, _⟩ := runCount_spec env (total - start) start 0 0
  refine ⟨by simpa using h1, by simpa using h2, ?_, ?_, ?_⟩
  · show (runCount env (total - start) start 0 0).successful +
      (runCount env (total - start) start 0 0).failed = _
    rw [h1, h2]
    simp only [Nat.zero_add]
    exact filter_length_split _ _
  · show (runCount env (total - start) start 0 0).processed.Nodup
    rw [h3]
    exact List.nodup_range' _ _
  · intro i hf ht hy hc2
    simp [recordOutcome, hf, ht, hy, hc2]

/-- The environment of the C8 witness: the first attempt fails with a
timeout, the operator approves a retry, and the retry succeeds. -/
def c8env : UploadEnv :=
  ⟨fun _ => (false, "Timeout"), fun _ => (true, "ok"), fun _ => "y"⟩

/-- C8 witness: the retried-then-successful record has outcome success. -/
theorem upload_counters_wit :
    (c8env.call1 0).1 = false ∧ isTransientMsg (c8env.call1 0).2 = true ∧
    pyStrip (pyLower (c8env.oper 0)) = "y" ∧ (c8env.call2 0).1 = true ∧
    recordOutcome c8env 0 = true :=
  ⟨rfl, by decide, by decide, rfl,
   (upload_counters c8env 1 0).2.2.2.2 0 rfl (by decide) (by decide) rfl⟩

/-- C3 (amended): a run started at `start_index = start` never invokes
delivery for an index below `start` (nor at or beyond the list's length),
processes at most `total - start` records, and - when no delivery attempt
fails, so the operator is never consulted - processes exactly the indices
`start, ..., total - 1` in order, delivering each exactly once. -/
theorem upload_resume (env : UploadEnv) (total start : Nat) :
    (∀ j ∈ (upload_main env total start).calls, start ≤ j ∧ j < total) ∧
    (upload_main env total start).processed.length ≤ total - start ∧
    ((∀ j, (env.call1 j).1 = true) →
      (upload_main env total start).calls = List.range' start (total - start) ∧
      (upload_main env total start).processed = List.range' start (total - start)) := by
  obtain ⟨_, _, _, h4, h5⟩ := runCount_spec env (total - start) start 0 0
  refine ⟨?_, by simpa using h4, ?_⟩
  · intro j hj
    have := h5 j hj
    omega
  · intro hall
    exact runCount_all_success env hall (total - start) start 0 0

/-- The environment of the C3 counterexample: the single attempt fails with
a non-transient message and the operator declines to continue. -/
def c3env : UploadEnv :=
  ⟨fun _ => (false, "boom"), fun _ => (true, ""), fun _ => "n"⟩

/-- C3 counterexample: with two records and `start_index = 0`, the run aborts
after the first record, processing one record, not `len - start = 2`. -/
theorem upload_resume_cex :
    (upload_main c3env 2 0).processed = [0] ∧
    (upload_main c3env 2 0).processed.length ≠ 2 - 0 :=
  ⟨by decide, by decide⟩

/-- A fully successful environment. -/
def c3okEnv : UploadEnv :=
  ⟨fun _ => (true, "ok"), fun _ => (true, ""), fun _ => "y"⟩

/-- C3 witness: a failure-free run from `start_index = 1` over three records
delivers exactly indices 1 and 2, in order. -/
theorem upload_resume_wit :
    (∀ j, (c3okEnv.call1 j).1 = true) ∧
    (upload_main c3okEnv 3 1).calls = List.range' 1 (3 - 1) ∧
    (upload_main c3okEnv 3 1).processed = List.range' 1 (3 - 1) :=
  ⟨fun _ => rfl, ((upload_resume c3okEnv 3 1).2.2 (fun _ => rfl)).1,
   ((upload_resume c3okEnv 3 1).2.2 (fun _ => rfl)).2⟩

/-- C9 (amended): the run always reports the final success/failure tally;
the resume index, equal to the count of records confirmed successful plus
the original starting offset, is reported exactly when at least one delivery
failed - a failure-free run prints no resume index. -/
theorem upload_resume_report (env : UploadEnv) (total start : Nat) :
    (0 < (upload_main env total start).failed →
      (upload_main env total start).resumeReport =
        some (((upload_main env total start).processed.filter
          (fun j => recordOutcome env j)).length + start)) ∧
    ((upload_main env total start).failed = 0 →
      (upload_main env total start).resumeReport = none) := by
  obtain ⟨h1, _, _, _, _⟩ := runCount_spec env (total - start) start 0 0
  constructor
  · intro hf
    show (if 0 < (runCount env (total - start) start 0 0).failed then
        some ((runCount env (total - start) start 0 0).successful + start) else none) = _
    rw [if_pos (by simpa using hf), h1, Nat.zero_add]
    rfl
  · intro hf
    have hf2 : (runCount env (total - start) start 0 0).failed = 0 := hf
    show (if 0 < (runCount env (total - start) start 0 0).failed then
        some ((runCount env (total - start) start 0 0).successful + start) else none) = none
    rw [if_neg (by omega)]

/-- C9 counterexample: a failure-free run ends with no resume-index report
at all, contradicting "regardless of whether any failures occurred". -/
theorem upload_resume_report_cex :
    (upload_main c3okEnv 1 0).failed = 0 ∧
    (upload_main c3okEnv 1 0).resumeReport = none :=
  ⟨by decide, by decide⟩

/-- The environment of the C9 witness: record 0 times out and is skipped,
record 1 succeeds. -/
def c9env : UploadEnv :=
  ⟨fun i => if i = 0 then (false, "Timeout") else (true, "ok"),
   fun _ => (true, ""), fun _ => "s"⟩

/-- C9 witness: a run with one failure reports resume index
`successful + start`. -/
theorem upload_resume_report_wit :
    0 < (upload_main c9env 2 0).failed ∧
    (upload_main c9env 2 0).resumeReport =
      some (((upload_main c9env 2 0).processed.filter
        (fun j => recordOutcome c9env j)).length + 0) :=
  ⟨by decide, (upload_resume_report c9env 2 0).1 (by decide)⟩

/-- The oversized-payload fallback loop, fully characterized: when every
record of the batch succeeds singly it delivers all of them in order; when
some record fails it delivers the successful prefix plus the first failing
record and aborts. -/
theorem singleFallback_spec {α} (single : α → Bool) :
    ∀ b : List α,
      (b.all single = true → singleFallback single b = (true, b.length, b)) ∧
      (b.all single = false →
        singleFallback single b =
          (false, (b.takeWhile single).length,
           b.takeWhile single ++ (b.dropWhile single).take 1)) := by
  intro b
  induction b with
  | nil => exact ⟨fun _ => rfl, fun h => by simp at h⟩
  | cons r rest ih =>
    constructor
    · intro h
      simp only [List.all_cons, Bool.and_eq_true] at h
      simp only [singleFallback, h.1, if_true, ih.1 h.2]
      simp
    · intro h
      by_cases hr : single r
      · simp only [List.all_cons, hr, Bool.true_and] at h
        simp only [singleFallback, hr, if_true, ih.2 h]
        simp only [List.takeWhile_cons, List.dropWhile_cons, hr, if_true, reduceIte]
        simp
      · have hrf : single r = false := by
          cases hx : single r
          · rfl
          · exact absurd hx hr
        simp only [singleFallback, hrf, Bool.false_eq_true, if_false]
        simp [List.takeWhile_cons, List.dropWhile_cons, hrf]

/-- C2 (amended): when a batch remote call fails with the oversized-payload
classification (`OSError` errno 7), the pipeline automatically (without an
operator decision) falls back to single-record delivery for that batch,
attempting the records in order up to and including the first individual
failure.  If every record of the batch succeeds singly, all of them are
delivered in order, all are counted, and the loop proceeds to the remaining
batches; if some record fails singly, the records delivered are exactly the
successful prefix plus that first failing record, and the run returns
failure.  The batch's aggregate success equals the conjunction of its
records' individual outcomes. -/
theorem batch_fallback {α} (env : BatchEnv α) (b : List α) (rest : List (List α))
    (hb : env.batchCall b = BatchCallRes.osError 7) :
    (b.all env.singleCall = true →
      uploadBatchLoop env (b :: rest) =
        ((uploadBatchLoop env rest).1,
         b.length + (uploadBatchLoop env rest).2.1,
         UpEvent.batch b :: (b.map UpEvent.single ++ (uploadBatchLoop env rest).2.2))) ∧
    (b.all env.singleCall = false →
      uploadBatchLoop env (b :: rest) =
        (false, (b.takeWhile env.singleCall).length,
         UpEvent.batch b ::
           (b.takeWhile env.singleCall ++ (b.dropWhile env.singleCall).take 1).map
             UpEvent.single)) := by
  constructor
  · intro h
    simp only [uploadBatchLoop, hb]
    rw [(singleFallback_spec env.singleCall b).1 h]
    simp
  · intro h
    simp only [uploadBatchLoop, hb]
    rw [(singleFallback_spec env.singleCall b).2 h]
    simp

/-- Batch environment of the C2 witness: the batch call is oversized and
every single delivery succeeds. -/
def c2okEnv : BatchEnv Nat := ⟨fun _ => BatchCallRes.osError 7, fun _ => true⟩

/-- C2 witness: the all-successful fallback clause evaluated on batch
`[5, 6]`. -/
theorem batch_fallback_wit :
    c2okEnv.batchCall [5, 6] = BatchCallRes.osError 7 ∧
    [5, 6].all c2okEnv.singleCall = true ∧
    uploadBatchLoop c2okEnv [[5, 6]] =
      ((uploadBatchLoop c2okEnv []).1,
       [5, 6].length + (uploadBatchLoop c2okEnv []).2.1,
       UpEvent.batch [5, 6] ::
         ([5, 6].map UpEvent.single ++ (uploadBatchLoop c2okEnv []).2.2)) :=
  ⟨rfl, by decide, (batch_fallback c2okEnv [5, 6] [] rfl).1 (by decide)⟩

/-- Batch environment of the C2 counterexample: the batch call is oversized,
and record 0 fails its single delivery while record 1 would succeed. -/
def c2env : BatchEnv Nat := ⟨fun _ => BatchCallRes.osError 7, fun r => r == 1⟩

/-- C2 counterexample: batch `[0, 1]` fails with the oversized
classification; record 0 fails its single delivery, so record 1 is never
delivered individually - the fallback does not deliver every record of the
batch. -/
theorem batch_fallback_cex :
    c2env.batchCall [0, 1] = BatchCallRes.osError 7 ∧
    upload_to_canister_batch c2env [0, 1] 3 =
      (false, 0, [UpEvent.batch [0, 1], UpEvent.single 0]) ∧
    UpEvent.single 1 ∉ (upload_to_canister_batch c2env [0, 1] 3).2.2 :=
  ⟨rfl, by decide, by decide⟩

/-- `str.replace` with a one-character pattern is the character map that
sends that character to the replacement and leaves the rest alone. -/
theorem replaceL_single_char (a : Char) (rep : List Char) :
    ∀ (fuel : Nat) (l : List Char), l.length ≤ fuel →
      replaceL [a] rep fuel l =
        (l.map (fun c => if c = a then rep else [c])).flatten := by
  intro fuel
  induction fuel with
  | zero =>
    intro l hl
    cases l with
    | nil => rfl
    | cons c rest => simp at hl
  | succ fuel ih =>
    intro l hl
    cases l with
    | nil => rfl
    | cons c rest =>
      simp only [replaceL, List.map_cons, List.flatten_cons]
      have hrest : rest.length ≤ fuel := by
        simp only [List.length_cons] at hl
        omega
      by_cases hc : c = a
      · have hcond : (!List.isEmpty [a] && startsWithL [a] (c :: rest)) = true := by
          simp [startsWithL, hc]
        rw [if_pos hcond]
        have hdrop : (c :: rest).drop [a].length = rest := rfl
        rw [hdrop, ih rest hrest, if_pos hc]
      · have hstart : startsWithL [a] (c :: rest) = false := by
          simp [startsWithL, Ne.symm hc]
        rw [if_neg (by simp [hstart])]
        rw [ih rest hrest, if_neg hc]
        rfl

/-- C10: the text field of the single-record wire encoding is the record's
text transformed by the per-character map `escCharSpec` - each double quote
prefixed by a backslash, each newline and carriage return replaced by one
space, all other characters unchanged.  Consequently the encoded text
contains no newline, and a text containing a newline is never transmitted
verbatim. -/
theorem escape_text_spec (t : String) :
    (escape_text t).toList = (t.toList.map escCharSpec).flatten ∧
    '\n' ∉ (escape_text t).toList ∧
    ('\n' ∈ t.toList → escape_text t ≠ t) := by
  have key : ∀ (a : Char) (rep : List Char) (l : List Char),
      replaceL [a] rep l.length l = l.flatMap (fun c => if c = a then rep else [c]) := by
    intro a rep l
    rw [replaceL_single_char a rep l.length l (Nat.le_refl _), List.flatMap_def]
  have s1 : (pyReplace t "\"" "\\\"").toList
      = t.toList.flatMap (fun c => if c = '"' then ['\\', '"'] else [c]) :=
    key '"' ['\\', '"'] t.toList
  have s2 : (pyReplace (pyReplace t "\"" "\\\"") "\n" " ").toList
      = (pyReplace t "\"" "\\\"").toList.flatMap (fun c => if c = '\n' then [' '] else [c]) :=
    key '\n' [' '] (pyReplace t "\"" "\\\"").toList
  have s3 : (escape_text t).toList
      = (pyReplace (pyReplace t "\"" "\\\"") "\n" " ").toList.flatMap
          (fun c => if c = '\r' then [' '] else [c]) :=
    key '\r' [' '] (pyReplace (pyReplace t "\"" "\\\"") "\n" " ").toList
  have hmain : (escape_text t).toList = t.toList.flatMap escCharSpec := by
    rw [s3, s2, s1, List.flatMap_assoc, List.flatMap_assoc]
    have hfun : (fun c => (if c = '"' then ['\\', '"'] else [c]).flatMap
        (fun x => (if x = '\n' then [' '] else [x]).flatMap
          (fun y => if y = '\r' then [' '] else [y]))) = escCharSpec := by
      funext c
      by_cases h1 : c = '"'
      · subst h1; decide
      · by_cases h2 : c = '\n'
        · subst h2; simp [escCharSpec, h1]
        · by_cases h3 : c = '\r'
          · subst h3; simp [escCharSpec, h1, h2]
          · simp [escCharSpec, h1, h2, h3]
    rw [hfun]
  have hnonl : '\n' ∉ (escape_text t).toList := by
    rw [hmain]
    intro hmem
    rw [List.mem_flatMap] at hmem
    obtain ⟨c, hc, hin⟩ := hmem
    by_cases h1 : c = '"'
    · simp [escCharSpec, h1] at hin
    · by_cases h2 : c = '\n'
      · simp [escCharSpec, h1, h2] at hin
      · by_cases h3 : c = '\r'
        · simp [escCharSpec, h1, h2, h3] at hin
        · simp [escCharSpec, h1, h2, h3] at hin
          exact h2 hin.symm
  refine ⟨by rw [hmain, List.flatMap_def], hnonl, ?_⟩
  intro ht heq
  exact hnonl (by rw [heq]; exact ht)

/-- C10 witness: the escaping evaluated on a text containing a quote and a
newline - the encoded text is not the verbatim text. -/
theorem escape_text_spec_wit :
    '\n' ∈ ("a\"b\nc".toList) ∧ escape_text "a\"b\nc" ≠ "a\"b\nc" :=
  ⟨by decide, (escape_text_spec "a\"b\nc").2.2 (by decide)⟩
